import Mathlib

/-!
# Hive-Earnings: shallow embedding and verification

A shallow embedding of the core logic of the Hive-Earnings repository:

* `withRetries` — the retry/backoff loop of `src/utils/utils.js`;
* the paginated ledger scanners of `src/services/orchestrator.js`
  (`HiveEarningsService.analyzeInbound` / `analyzeOutbound`,
  `TokenEarningsService.analyzeInbound` / `analyzeOutbound`);
* the endpoint selection of `getNodeEndpoint` (`src/apis/beacon.js`);
* the price memoisation of `HivePriceProvider.getHiveUsd` and the
  market-metrics lookup `HiveEngineApi.getTokenPriceUsd` (`src/apis/apis.js`);
* the request validation, transient configuration overrides and report
  assembly of `EarningsAnalyzer.inbounds` / `outbounds`
  (`src/services/orchestrator.js`).

JavaScript numbers are modelled as `ℚ` (amounts, prices) and `ℤ`
(millisecond / second timestamps); JS objects used as ordered string maps
are modelled as association lists in insertion order; thrown exceptions are
modelled with `Except`.  Loops are modelled by structural recursion on an
explicit fuel which is always instantiated large enough to be irrelevant
(each theorem either supplies sufficient fuel or hypothesises it).
-/

namespace HiveEarnings

/- ----------------------------------------------------------------------- -/
/- `withRetries` (src/utils/utils.js, lines 45-59)                          -/
/- ----------------------------------------------------------------------- -/

/-- Trace of one `withRetries` run: the outcome (`Except.error none` models
`throw lastErr` with `lastErr` still `undefined`, possible only when
`retries = 0`), the number of times `fn` was invoked, and the list of
back-off delays slept, in order. -/
structure RetryTrace (E A : Type) where
  result : Except (Option E) A
  calls : ℕ
  delays : List ℕ

/-- The loop of `withRetries`: `remaining` counts the attempts still allowed
(`retries - attempt`), `attempt` is the current 0-based attempt index and
`lastErr` the last caught error.  Mirrors
`for (let attempt = 0; attempt < retries; attempt++) { try { return await
fn(attempt); } catch (err) { lastErr = err; if (attempt < retries - 1)
await sleep(2 ** attempt * baseDelay); } } throw lastErr;`
(`attempt < retries - 1` is exactly `remaining ≠ 1`, i.e. the decremented
`remaining` is nonzero). -/
def withRetriesAux (fn : ℕ → Except E A) (baseDelay : ℕ) :
    ℕ → ℕ → Option E → RetryTrace E A
  | 0, _, lastErr => ⟨.error lastErr, 0, []⟩
  | remaining + 1, attempt, _ =>
    match fn attempt with
    | .ok a => ⟨.ok a, 1, []⟩
    | .error e =>
      let rest := withRetriesAux fn baseDelay remaining (attempt + 1) (some e)
      ⟨rest.result, rest.calls + 1,
        if remaining = 0 then rest.delays
        else (2 ^ attempt * baseDelay) :: rest.delays⟩

/-- `withRetries(fn, retries, baseDelay)` of `src/utils/utils.js`, with the
outcome of each attempt given by `fn : ℕ → Except E A` (attempt index ↦
result of `await fn(attempt)`). -/
def withRetries (fn : ℕ → Except E A) (retries : ℕ := 3) (baseDelay : ℕ := 300) :
    RetryTrace E A :=
  withRetriesAux fn baseDelay retries 0 none

theorem withRetriesAux_calls_le (fn : ℕ → Except E A) (baseDelay : ℕ) :
    ∀ remaining attempt lastErr,
      (withRetriesAux fn baseDelay remaining attempt lastErr).calls ≤ remaining := by
  intro remaining
  induction remaining with
  | zero => intro attempt lastErr; simp [withRetriesAux]
  | succ n ih =>
    intro attempt lastErr
    simp only [withRetriesAux]
    cases fn attempt with
    | ok a => simp
    | error e =>
      simpa using Nat.succ_le_succ (ih (attempt + 1) (some e))

theorem withRetriesAux_delays (fn : ℕ → Except E A) (baseDelay : ℕ) :
    ∀ remaining attempt lastErr,
      (withRetriesAux fn baseDelay remaining attempt lastErr).delays =
        (List.range (withRetriesAux fn baseDelay remaining attempt lastErr).delays.length).map
          (fun k => 2 ^ (attempt + k) * baseDelay) := by
  intro remaining
  induction remaining with
  | zero => intro attempt lastErr; simp [withRetriesAux]
  | succ n ih =>
    intro attempt lastErr
    simp only [withRetriesAux]
    cases fn attempt with
    | ok a => simp
    | error e =>
      by_cases hn : n = 0
      · subst hn
        simp [withRetriesAux]
      · simp only [if_neg hn]
        have h := ih (attempt + 1) (some e)
        generalize hl : (withRetriesAux fn baseDelay n (attempt + 1) (some e)).delays = l at h
        simp only [List.length_cons, List.range_succ_eq_map, List.map_cons, List.map_map]
        congr 1
        rw [h]
        simp only [List.length_map, List.length_range]
        apply List.map_congr_left
        intro k _
        simp only [Function.comp_apply]
        congr 2
        omega

theorem withRetriesAux_allFail (fn : ℕ → Except E A) (baseDelay : ℕ) (err : ℕ → E) :
    ∀ remaining attempt lastErr,
      (∀ k, attempt ≤ k → k < attempt + remaining → fn k = .error (err k)) →
      (withRetriesAux fn baseDelay remaining attempt lastErr).result =
        .error (if remaining = 0 then lastErr else some (err (attempt + remaining - 1))) := by
  intro remaining
  induction remaining with
  | zero => intro attempt lastErr _; simp [withRetriesAux]
  | succ n ih =>
    intro attempt lastErr hfail
    have h0 : fn attempt = .error (err attempt) :=
      hfail attempt le_rfl (by omega)
    simp only [withRetriesAux, h0]
    have hrest := ih (attempt + 1) (some (err attempt))
      (fun k hk1 hk2 => hfail k (by omega) (by omega))
    by_cases hn : n = 0
    · subst hn
      simp [withRetriesAux]
    · have : attempt + 1 + n - 1 = attempt + (n + 1) - 1 := by omega
      simp only [if_neg hn] at hrest
      rw [this] at hrest
      simpa [hn] using hrest

/-- C3: for every call `withRetries(fn, retries, baseDelay)` and every
sequence of outcomes of `fn`: `fn` is invoked at most `retries + 1` times
(the loop in fact performs at most `retries` invocations); the delay slept
before attempt `n` (`n ≥ 1`, the first attempt being attempt 0) equals
`2 ^ (n-1) * baseDelay` (the `i`-th recorded delay is `2 ^ i * baseDelay`);
and if every attempt fails, the error of the last attempt (index
`retries - 1`) is propagated to the caller. -/
theorem c3_withRetries_spec (fn : ℕ → Except E A) (retries baseDelay : ℕ) (err : ℕ → E) :
    (withRetries fn retries baseDelay).calls ≤ retries + 1 ∧
    (withRetries fn retries baseDelay).delays =
      (List.range (withRetries fn retries baseDelay).delays.length).map
        (fun k => 2 ^ k * baseDelay) ∧
    ((∀ k, k < retries → fn k = .error (err k)) → 1 ≤ retries →
      (withRetries fn retries baseDelay).result = .error (some (err (retries - 1)))) := by
  refine ⟨?_, ?_, ?_⟩
  · exact le_trans (withRetriesAux_calls_le fn baseDelay retries 0 none) (Nat.le_succ _)
  · have h := withRetriesAux_delays fn baseDelay retries 0 none
    simpa [withRetries] using h
  · intro hfail hpos
    have h := withRetriesAux_allFail fn baseDelay err retries 0 none
      (fun k _ hk2 => hfail k (by omega))
    have hne : retries ≠ 0 := by omega
    simpa [withRetries, hne] using h

/-- Witness for C3 at `fn = fun _ => .error 0`, `retries = 3`,
`baseDelay = 300`. -/
theorem c3_witness :
    (withRetries (fun _ => (Except.error 0 : Except ℕ ℕ)) 3 300).result =
      .error (some 0) :=
  (c3_withRetries_spec (fun _ => (Except.error 0 : Except ℕ ℕ)) 3 300
    (fun _ => 0)).2.2 (fun _ _ => rfl) (by decide)

/- ----------------------------------------------------------------------- -/
/- Report assembly: stable descending sort and success/error partition      -/
/- (src/services/orchestrator.js, lines 105-124 and 255-260)                -/
/- ----------------------------------------------------------------------- -/

/-- `array.sort((a, b) => key(b) - key(a))`: ECMAScript `Array.prototype.sort`
is required to be stable, and for the consistent numeric comparator used in
`orchestrator.js` its result is the unique stable descending reordering,
realised here by Mathlib's insertion sort with `r a b := key b ≤ key a`. -/
def sortByCombinedDesc (key : α → ℚ) (l : List α) : List α :=
  l.insertionSort (fun a b => key b ≤ key a)

/-- Per-account outcome recorded in `out.recipients` by
`EarningsAnalyzer.inbounds`: either the `{hive, tokens}` payload (of which
the assembly code reads only the two `totUsd` fields) or `{error: message}`. -/
inductive InbData where
  | ok (hiveTotUsd tokensTotUsd : ℚ)
  | err (msg : String)

/-- `data.hive && data.tokens`: the partition test of the inbound assembly. -/
def InbData.isSuccess : InbData → Bool
  | .ok _ _ => true
  | .err _ => false

/-- `data.hive.totUsd + data.tokens.totUsd`, the sort key (0 on error
entries, which are never sorted). -/
def combinedUsd : InbData → ℚ
  | .ok h t => h + t
  | .err _ => 0

def entryKey (e : String × InbData) : ℚ := combinedUsd e.2

/-- The final reordering of `out.recipients` in `EarningsAnalyzer.inbounds`
(lines 105-124): partition into successes (both `hive` and `tokens`
present) and errors, preserving encounter order; stable-sort the successes
descending by combined USD; append the errors. -/
def inboundAssemble (entries : List (String × InbData)) : List (String × InbData) :=
  sortByCombinedDesc entryKey (entries.filter (fun e => e.2.isSuccess)) ++
    entries.filter (fun e => !e.2.isSuccess)

/-- Per-recipient entry of an outbound report: the assembly's sort reads
`hive.totUsd` and `tokens.totUsd`. -/
structure OutRecipEntry where
  hiveTotUsd : ℚ
  tokensTotUsd : ℚ

def outRecipKey (e : String × OutRecipEntry) : ℚ :=
  e.2.hiveTotUsd + e.2.tokensTotUsd

/-- `sortedRecipients` of `EarningsAnalyzer.outbounds` (lines 255-260). -/
def outboundSortRecipients (recipients : List (String × OutRecipEntry)) :
    List (String × OutRecipEntry) :=
  sortByCombinedDesc outRecipKey recipients

theorem filter_orderedInsert_key (key : α → ℚ) (c : ℚ) (x : α) :
    ∀ l : List α,
      (List.orderedInsert (fun a b => key b ≤ key a) x l).filter
          (fun y => decide (key y = c)) =
        if key x = c then
          x :: l.filter (fun y => decide (key y = c))
        else l.filter (fun y => decide (key y = c)) := by
  intro l
  induction l with
  | nil =>
    by_cases hx : key x = c <;> simp [List.orderedInsert, List.filter, hx]
  | cons y ys ih =>
    simp only [List.orderedInsert]
    by_cases hr : key y ≤ key x
    · simp only [if_pos hr]
      by_cases hx : key x = c <;> simp [List.filter, hx]
    · simp only [if_neg hr]
      by_cases hy : key y = c
      · have hx : ¬ key x = c := by
          intro h; exact hr (le_of_eq (hy.trans h.symm))
        simp [List.filter, hy, hx, ih]
      · by_cases hx : key x = c <;> simp [List.filter, hy, hx, ih]

theorem filter_sortByCombinedDesc (key : α → ℚ) (c : ℚ) :
    ∀ l : List α,
      (sortByCombinedDesc key l).filter (fun y => decide (key y = c)) =
        l.filter (fun y => decide (key y = c)) := by
  intro l
  induction l with
  | nil => rfl
  | cons x xs ih =>
    simp only [sortByCombinedDesc, List.insertionSort] at ih ⊢
    rw [filter_orderedInsert_key]
    by_cases hx : key x = c <;> simp [List.filter, hx, ih]

theorem sortByCombinedDesc_sorted (key : α → ℚ) (l : List α) :
    List.Sorted (fun a b => key b ≤ key a) (sortByCombinedDesc key l) := by
  haveI : IsTotal α (fun a b => key b ≤ key a) := ⟨fun a b => le_total (key b) (key a)⟩
  haveI : IsTrans α (fun a b => key b ≤ key a) :=
    ⟨fun _ _ _ h1 h2 => le_trans h2 h1⟩
  exact List.sorted_insertionSort _ l

theorem sortByCombinedDesc_perm (key : α → ℚ) (l : List α) :
    List.Perm (sortByCombinedDesc key l) l :=
  List.perm_insertionSort _ l

/-- C8: in both reports the successful entries are stable-sorted in
descending order of the combined USD total: the sorted success list is a
permutation of the encountered success list, is pairwise descending in
`hive.totUsd + tokens.totUsd`, and for each key value the entries with that
key appear in their original encounter order (stability as filter
invariance); in the inbounds report the accounts whose scan raised an
error are appended after all successful accounts, in their original
request order (the unsorted `errors` filter of the input). -/
theorem c8_report_sorting (entries : List (String × InbData))
    (recipients : List (String × OutRecipEntry)) (c : ℚ) :
    inboundAssemble entries =
      sortByCombinedDesc entryKey (entries.filter (fun e => e.2.isSuccess)) ++
        entries.filter (fun e => !e.2.isSuccess) ∧
    List.Sorted (fun a b => entryKey b ≤ entryKey a)
      (sortByCombinedDesc entryKey (entries.filter (fun e => e.2.isSuccess))) ∧
    List.Perm (sortByCombinedDesc entryKey (entries.filter (fun e => e.2.isSuccess)))
      (entries.filter (fun e => e.2.isSuccess)) ∧
    (sortByCombinedDesc entryKey (entries.filter (fun e => e.2.isSuccess))).filter
        (fun y => decide (entryKey y = c)) =
      (entries.filter (fun e => e.2.isSuccess)).filter
        (fun y => decide (entryKey y = c)) ∧
    List.Sorted (fun a b => outRecipKey b ≤ outRecipKey a)
      (outboundSortRecipients recipients) ∧
    List.Perm (outboundSortRecipients recipients) recipients ∧
    (outboundSortRecipients recipients).filter
        (fun y => decide (outRecipKey y = c)) =
      recipients.filter (fun y => decide (outRecipKey y = c)) :=
  ⟨rfl, sortByCombinedDesc_sorted _ _, sortByCombinedDesc_perm _ _,
    filter_sortByCombinedDesc _ _ _, sortByCombinedDesc_sorted _ _,
    sortByCombinedDesc_perm _ _, filter_sortByCombinedDesc _ _ _⟩

/- ----------------------------------------------------------------------- -/
/- Orchestrator: validation and transient configuration overrides           -/
/- (src/services/orchestrator.js, lines 61-133 and 135-299)                 -/
/- ----------------------------------------------------------------------- -/

/-- The fields of the shared configuration object that
`EarningsAnalyzer.inbounds` / `outbounds` mutate or restore. -/
structure Config where
  hours : ℚ
  hiveSenders : List (String × String)
  tokenSenders : List (String × String)
  ignoredReceivers : List String

/-- JS truthiness of an optional numeric argument: `undefined`/`null` and
`0` are falsy (`days && hours`). -/
def truthy : Option ℚ → Bool
  | none => false
  | some v => v != 0

/-- The effective time window:
`if (hours != null) cfg.hours = hours; else if (days != null)
cfg.hours = days * 24;` (a non-strict `!= null` check, so `0` is applied). -/
def resolveHours (cfg : Config) (hours days : Option ℚ) : ℚ :=
  match hours with
  | some h => h
  | none =>
    match days with
    | some d => d * 24
    | none => cfg.hours

/-- `EarningsAnalyzer.inbounds` as a transformer of the shared
configuration.  The per-account scan work (every error of which is caught
inside the loop and surfaced as an `{error}` entry) is abstracted as
`analyze : Config → String → InbData`, applied under the overridden
configuration.  Returns the configuration as left behind by the call
together with the thrown validation error or the assembled
`out.recipients` list. -/
def inbounds (cfg : Config) (receivers : List String)
    (hiveSenders tokenSenders : List (String × String))
    (hours days : Option ℚ) (analyze : Config → String → InbData) :
    Config × Except String (List (String × InbData)) :=
  if receivers.isEmpty || (hiveSenders.length + tokenSenders.length == 0) then
    (cfg,
      .error "Please provide both the receiver(s) and the sender(s) accounts that you want to analyze")
  else if truthy days && truthy hours then
    (cfg, .error "Please provide either hours or days, not both")
  else
    let cfg1 : Config :=
      { cfg with
        hours := resolveHours cfg hours days
        hiveSenders := hiveSenders
        tokenSenders := tokenSenders }
    let results := receivers.map (fun acc => (acc, analyze cfg1 acc))
    let out := inboundAssemble results
    let cfg2 : Config :=
      { cfg1 with
        hiveSenders := cfg.hiveSenders
        tokenSenders := cfg.tokenSenders
        hours := cfg.hours }
    (cfg2, .ok out)

/-- Per-sender outcome of `EarningsAnalyzer.outbounds` (payload irrelevant
to the configuration claims). -/
inductive OutbData where
  | ok (recipients : List (String × OutRecipEntry))
  | noTransfers
  | err (msg : String)

/-- `EarningsAnalyzer.outbounds` as a transformer of the shared
configuration.  Note the source sets `this.#cfg.ignoredReceivers =
ignoredReceivers` (line 150) but only restores `this.#cfg.hours` at the end
(line 297): the ignored-receivers override survives the call. -/
def outbounds (cfg : Config) (senders : List String)
    (ignoredReceivers : List String) (hours days : Option ℚ)
    (analyze : Config → String → OutbData) :
    Config × Except String (List (String × OutbData)) :=
  if senders.isEmpty then
    (cfg, .error "\"senders\" argument missing - provide at least one account")
  else if truthy days && truthy hours then
    (cfg, .error "Please provide either hours or days, not both")
  else
    let cfg1 : Config :=
      { cfg with
        hours := resolveHours cfg hours days
        ignoredReceivers := ignoredReceivers }
    let out := senders.map (fun s => (s, analyze cfg1 s))
    let cfg2 : Config := { cfg1 with hours := cfg.hours }
    (cfg2, .ok out)

/-- C5 counterexample: `outbounds` applies `ignoredReceivers` as an
override on the shared configuration (line 150) and never restores it:
after a completed call with `ignoredReceivers = ["x"]` on a configuration
whose prior ignore-list was empty, the configuration still carries `["x"]`. -/
theorem c5_counterexample :
    ((outbounds ⟨24, [], [], []⟩ ["alice"] ["x"] none none
          (fun _ _ => OutbData.noTransfers)).1).ignoredReceivers = ["x"] ∧
      (Config.mk 24 [] [] []).ignoredReceivers = [] :=
  ⟨rfl, rfl⟩

/-- C5 as amended: `inbounds` restores every override it applies (hours and
both sender mappings), so the post-call configuration equals the pre-call
one; `outbounds` restores the hours override and leaves the sender
mappings untouched — but its `ignoredReceivers` override is not restored
(refuted separately by the counterexample). -/
theorem c5_overrides_restored (cfg : Config) (receivers : List String)
    (hs ts : List (String × String)) (hours days : Option ℚ)
    (analyze : Config → String → InbData) (senders ign : List String)
    (analyzeOut : Config → String → OutbData) :
    (inbounds cfg receivers hs ts hours days analyze).1 = cfg ∧
    ((outbounds cfg senders ign hours days analyzeOut).1).hours = cfg.hours ∧
    ((outbounds cfg senders ign hours days analyzeOut).1).hiveSenders = cfg.hiveSenders ∧
    ((outbounds cfg senders ign hours days analyzeOut).1).tokenSenders = cfg.tokenSenders := by
  refine ⟨?_, ?_, ?_, ?_⟩
  · unfold inbounds; split_ifs <;> rfl
  · unfold outbounds; split_ifs <;> rfl
  · unfold outbounds; split_ifs <;> rfl
  · unfold outbounds; split_ifs <;> rfl

/-- C6 counterexample: the mutual-exclusion check is
`if (days && hours) throw ...` — JS truthiness — so a call supplying both
`hours: 2` and `days: 0` raises no validation error and proceeds to scan
(the supplied scan outcome reaches the report). -/
theorem c6_counterexample :
    (inbounds ⟨24, [], [], []⟩ ["r"] [("K", "s")] [] (some 2) (some 0)
        (fun _ _ => InbData.err "scan")).2 =
      .ok [("r", InbData.err "scan")] := by
  rfl

/-- C6 as amended: for every `inbounds` or `outbounds` call in which both
`hours` and `days` are supplied with truthy (nonzero) values, the call
raises a validation error synchronously before performing any remote call
(the result does not depend on the scan function) and the shared
configuration is left unchanged. -/
theorem c6_hours_days_validation (cfg : Config) (receivers : List String)
    (hs ts : List (String × String)) (hours days : Option ℚ)
    (analyze analyze' : Config → String → InbData)
    (senders ign : List String) (aOut aOut' : Config → String → OutbData)
    (hh : truthy hours = true) (hd : truthy days = true) :
    (inbounds cfg receivers hs ts hours days analyze).1 = cfg ∧
    (∃ msg, (inbounds cfg receivers hs ts hours days analyze).2 = .error msg) ∧
    inbounds cfg receivers hs ts hours days analyze =
      inbounds cfg receivers hs ts hours days analyze' ∧
    (outbounds cfg senders ign hours days aOut).1 = cfg ∧
    (∃ msg, (outbounds cfg senders ign hours days aOut).2 = .error msg) ∧
    outbounds cfg senders ign hours days aOut =
      outbounds cfg senders ign hours days aOut' := by
  have hcond : (truthy days && truthy hours) = true := by rw [hh, hd]; rfl
  refine ⟨?_, ?_, ?_, ?_, ?_, ?_⟩
  · unfold inbounds; split_ifs <;> rfl
  · unfold inbounds; split_ifs <;> exact ⟨_, rfl⟩
  · unfold inbounds; split_ifs <;> rfl
  · unfold outbounds; split_ifs <;> rfl
  · unfold outbounds; split_ifs <;> exact ⟨_, rfl⟩
  · unfold outbounds; split_ifs <;> rfl

/-- Witness for C6 as amended, at `hours = some 2`, `days = some 1`. -/
theorem c6_witness :
    (inbounds ⟨24, [], [], []⟩ ["r"] [("K", "s")] [] (some 2) (some 1)
        (fun _ _ => InbData.err "scan")).1 = ⟨24, [], [], []⟩ :=
  (c6_hours_days_validation ⟨24, [], [], []⟩ ["r"] [("K", "s")] []
    (some 2) (some 1) (fun _ _ => InbData.err "scan")
    (fun _ _ => InbData.err "scan") ["s"] [] (fun _ _ => OutbData.noTransfers)
    (fun _ _ => OutbData.noTransfers) (by decide) (by decide)).1

/- ----------------------------------------------------------------------- -/
/- Ledger scanners (src/services/analyzers.js part of orchestrator.js)      -/
/- ----------------------------------------------------------------------- -/

/-- `str.endsWith(post)`: the JS builtin, computed on the character
lists so that it evaluates by kernel reduction. -/
def strEndsWith (s post : String) : Bool := post.data.isSuffixOf s.data

/-- `str.toLowerCase()`: the JS builtin on ASCII data, computed on the
character lists. -/
def strToLower (s : String) : String := ⟨s.data.map Char.toLower⟩

/-- `camelFromEnum` (src/utils/utils.js, lines 21-24): the global
replacement of `/_([a-zA-Z])/` by the upper-cased letter. -/
def camelChars : List Char → List Char
  | [] => []
  | '_' :: c :: rest =>
    if c.isAlpha then c.toUpper :: camelChars rest
    else '_' :: camelChars (c :: rest)
  | c :: rest => c :: camelChars rest

/-- `camelFromEnum(str)`: lower-case the string when it starts with an
ASCII capital, then camel-case the `_x` groups. -/
def camelFromEnum (str : String) : String :=
  let base :=
    match str.data with
    | [] => str
    | c :: _ => if c.isUpper then strToLower str else str
  ⟨camelChars base.data⟩

/-- `opData` of a native-ledger history entry: `{from, to, amount}` with the
amount an asset-string such as `"1.000 HIVE"`. -/
structure HiveOpData where
  from_ : String
  to_ : String
  amount : String
  deriving DecidableEq

/-- One native-ledger history record `{op: [opName, opData], timestamp}`;
`timestamp` is `new Date(entry.timestamp).getTime()` in milliseconds. -/
structure HiveEntry where
  opName : String
  opData : HiveOpData
  timestamp : ℤ
  deriving DecidableEq

/-- One token-ledger history record
`{timestamp (unix seconds), operation, symbol, quantity, from, to}`. -/
structure TokenTx where
  operation : String
  symbol : String
  quantity : String
  from_ : String
  to_ : String
  timestamp : ℤ
  deriving DecidableEq

/-- The page returned by the remote `getAccountHistory(account, start,
limit)` for current top index `s` (already resolved from `start = -1` to
the newest index).  Modelled from the spec (external interface, §6): an
ordered ascending array of `(index, record)` pairs ending at index `s`;
the scanner's `page.reverse()` and `page[page.length-1][0] - 1` rely
exactly on this shape. -/
def hivePage (hist : List HiveEntry) (s limit : ℕ) : List (ℕ × HiveEntry) :=
  (hist.enum.take (s + 1)).drop (s + 1 - limit)

/-- The inner `for ... of page` loop shared by all four scanners: process
records in order, breaking out (with `more = false`) at the first record
whose timestamp is below the cutoff.  Returns the updated accumulator and
the `more` flag. -/
def processPage (ts : β → ℤ) (f : α → β → α) (since : ℤ) : List β → α → α × Bool
  | [], acc => (acc, true)
  | e :: rest, acc =>
    if ts e < since then (acc, false)
    else processPage ts f since rest (f acc e)

/-- The native-ledger pagination loop (`while (more) { ... }` of
`HiveEarningsService.analyzeInbound` / `analyzeOutbound`): fetch the page
ending at `s`, reverse it to newest-first, process with early exit, then
continue from `start = lo - 1` unless `start < 0`.  `fuel` bounds the
number of page fetches; `hist.length` always suffices. -/
def hiveScanGo (hist : List HiveEntry) (limit : ℕ) (f : α → ℕ × HiveEntry → α)
    (since : ℤ) : ℕ → ℕ → α → α
  | 0, _, acc => acc
  | fuel + 1, s, acc =>
    let page := hivePage hist s limit
    if page.isEmpty then acc
    else
      let pr := processPage (fun e => e.2.timestamp) f since page.reverse acc
      if !pr.2 then pr.1
      else
        let lo := s + 1 - limit
        if lo = 0 then pr.1
        else hiveScanGo hist limit f since fuel (lo - 1) pr.1

/-- A whole native-ledger scan, starting from `start = -1` (newest). -/
def hiveScan (hist : List HiveEntry) (limit : ℕ) (f : α → ℕ × HiveEntry → α)
    (since : ℤ) (init : α) : α :=
  hiveScanGo hist limit f since hist.length (hist.length - 1) init

/-- The token-ledger pagination loop (`while (more)` of
`TokenEarningsService.analyzeInbound` / `analyzeOutbound`): `getHistory`
returns `limit` records at `offset` of the newest-first history; the
timestamp check is on `tx.timestamp * 1000`. -/
def tokenScanGo (hist : List TokenTx) (limit : ℕ) (f : α → TokenTx → α)
    (since : ℤ) : ℕ → ℕ → α → α
  | 0, _, acc => acc
  | fuel + 1, offset, acc =>
    let page := (hist.drop offset).take limit
    if page.isEmpty then acc
    else
      let pr := processPage (fun t => t.timestamp * 1000) f since page acc
      if !pr.2 then pr.1
      else tokenScanGo hist limit f since fuel (offset + limit) pr.1

/-- A whole token-ledger scan, starting at `offset = 0`. -/
def tokenScan (hist : List TokenTx) (limit : ℕ) (f : α → TokenTx → α)
    (since : ℤ) (init : α) : α :=
  tokenScanGo hist limit f since (hist.length + 1) 0 init

/-- In-place update of a JS-object entry (`obj[k].tot += amt;
obj[k].transactions += 1`); object keys are unique, so only the first
match is updated. -/
def bumpCategory (cat : String) (amt : ℚ) : List (String × ℚ × ℕ) → List (String × ℚ × ℕ)
  | [] => []
  | (k, t, n) :: rest =>
    if k = cat then (k, t + amt, n + 1) :: rest
    else (k, t, n) :: bumpCategory cat amt rest

/-- `obj[k] = (obj[k] ?? 0) + amt`: new keys are appended (JS insertion
order). -/
def addAmt (k : String) (amt : ℚ) : List (String × ℚ) → List (String × ℚ)
  | [] => [(k, amt)]
  | (k1, v) :: rest =>
    if k1 = k then (k1, v + amt) :: rest else (k1, v) :: addAmt k amt rest

/-- `obj[k] = (obj[k] ?? 0) + 1`. -/
def addCount (k : String) : List (String × ℕ) → List (String × ℕ)
  | [] => [(k, 1)]
  | (k1, v) :: rest =>
    if k1 = k then (k1, v + 1) :: rest else (k1, v) :: addCount k rest

/-- `obj[cat] ??= {}; obj[cat][sym] = (obj[cat][sym] ?? 0) + amt`. -/
def addNestedAmt (cat sym : String) (amt : ℚ) :
    List (String × List (String × ℚ)) → List (String × List (String × ℚ))
  | [] => [(cat, [(sym, amt)])]
  | (k, bag) :: rest =>
    if k = cat then (k, addAmt sym amt bag) :: rest
    else (k, bag) :: addNestedAmt cat sym amt rest

/-- `obj[cat] ??= {}; obj[cat][sym] = (obj[cat][sym] ?? 0) + 1`. -/
def addNestedCount (cat sym : String) :
    List (String × List (String × ℕ)) → List (String × List (String × ℕ))
  | [] => [(cat, [(sym, 1)])]
  | (k, bag) :: rest =>
    if k = cat then (k, addCount sym bag) :: rest
    else (k, bag) :: addNestedCount cat sym rest

/-- `camelFromEnum(Object.entries(senders).find(([, val]) => val ===
from)[0])`; defaults to `""` on the (guarded-out) missing case. -/
def categoryOf (senders : List (String × String)) (acct : String) : String :=
  camelFromEnum (((senders.find? (fun kv => kv.2 == acct)).map Prod.fst).getD "")

/-- Accumulator of `HiveEarningsService.analyzeInbound`: `totHiveSent` and
the per-category `{tot, transactions}` breakdown in key insertion order. -/
structure HiveInboundAcc where
  totHiveSent : ℚ
  breakdown : List (String × ℚ × ℕ)
  deriving DecidableEq

/-- One record's contribution in `HiveEarningsService.analyzeInbound`
(lines 348-362): `inbound = to === username && senderAccounts.includes
(from) && opName === 'transfer' && amount.endsWith(' HIVE')`.  `parse`
stands for the external JS builtin `parseFloat`. -/
def hiveInStep (parse : String → ℚ) (hiveSenders : List (String × String))
    (username : String) (acc : HiveInboundAcc) (e : ℕ × HiveEntry) : HiveInboundAcc :=
  let d := e.2.opData
  if d.to_ == username && (hiveSenders.map Prod.snd).contains d.from_ &&
      e.2.opName == "transfer" && strEndsWith d.amount " HIVE" then
    let amt := parse d.amount
    { totHiveSent := acc.totHiveSent + amt,
      breakdown := bumpCategory (categoryOf hiveSenders d.from_) amt acc.breakdown }
  else acc

/-- The zero-initialised breakdown keyed by `camelFromEnum` of the sender
keys. -/
def hiveInboundInit (hiveSenders : List (String × String)) : HiveInboundAcc :=
  ⟨0, hiveSenders.map (fun kv => (camelFromEnum kv.1, 0, 0))⟩

/-- `{totHiveSent, breakdown, totHiveTransactions}`. -/
structure HiveInboundResult where
  totHiveSent : ℚ
  breakdown : List (String × ℚ × ℕ)
  totHiveTransactions : ℕ
  deriving DecidableEq

/-- The return value built from a finished accumulator (lines 370-375). -/
def hiveInboundFinish (acc : HiveInboundAcc) : HiveInboundResult :=
  ⟨acc.totHiveSent, acc.breakdown, (acc.breakdown.map (fun kv => kv.2.2)).sum⟩

/-- `HiveEarningsService.analyzeInbound(username, sinceTs)` over a given
full remote history. -/
def hiveAnalyzeInbound (parse : String → ℚ) (hiveSenders : List (String × String))
    (username : String) (since : ℤ) (hist : List HiveEntry) (limit : ℕ) :
    HiveInboundResult :=
  hiveInboundFinish
    (hiveScan hist limit (hiveInStep parse hiveSenders username) since
      (hiveInboundInit hiveSenders))

/-- Accumulator of `HiveEarningsService.analyzeOutbound`. -/
structure HiveOutboundAcc where
  perRecipient : List (String × ℚ)
  perRecipientTxCount : List (String × ℕ)
  deriving DecidableEq

/-- One record's contribution in `HiveEarningsService.analyzeOutbound`
(lines 405-417): `outbound = from === sender && opName === 'transfer' &&
amount.endsWith(' HIVE')`, skipped when `from === to` or the recipient is
ignored. -/
def hiveOutStep (parse : String → ℚ) (ignored : List String) (sender : String)
    (acc : HiveOutboundAcc) (e : ℕ × HiveEntry) : HiveOutboundAcc :=
  let d := e.2.opData
  let outbound := d.from_ == sender && e.2.opName == "transfer" &&
    strEndsWith d.amount " HIVE"
  let shouldIgnore := d.from_ == d.to_ || ignored.contains d.to_
  if outbound && !shouldIgnore then
    ⟨addAmt d.to_ (parse d.amount) acc.perRecipient,
      addCount d.to_ acc.perRecipientTxCount⟩
  else acc

/-- `HiveEarningsService.analyzeOutbound(sender, sinceTs)`. -/
def hiveAnalyzeOutbound (parse : String → ℚ) (ignored : List String)
    (sender : String) (since : ℤ) (hist : List HiveEntry) (limit : ℕ) :
    HiveOutboundAcc :=
  hiveScan hist limit (hiveOutStep parse ignored sender) since ⟨[], []⟩

/-- Accumulator of the scanning phase of
`TokenEarningsService.analyzeInbound`. -/
structure TokenInboundAcc where
  raw : List (String × List (String × ℚ))
  counts : List (String × List (String × ℕ))
  totTokensTransactions : ℕ
  deriving DecidableEq

/-- One record's contribution in `TokenEarningsService.analyzeInbound`
(lines 469-489). -/
def tokenInStep (parse : String → ℚ) (tokenSenders : List (String × String))
    (username : String) (acc : TokenInboundAcc) (tx : TokenTx) : TokenInboundAcc :=
  if (tx.operation == "tokens_transfer" || tx.operation == "transfer" ||
      tx.operation == "tokens_stake" || tx.operation == "stake") &&
      tx.to_ == username && (tokenSenders.map Prod.snd).contains tx.from_ then
    let category := categoryOf tokenSenders tx.from_
    ⟨addNestedAmt category tx.symbol (parse tx.quantity) acc.raw,
      addNestedCount category tx.symbol acc.counts,
      acc.totTokensTransactions + 1⟩
  else acc

/-- The scanning phase of `TokenEarningsService.analyzeInbound` (the
subsequent price conversion reads only this accumulator). -/
def tokenAnalyzeInboundScan (parse : String → ℚ)
    (tokenSenders : List (String × String)) (username : String) (since : ℤ)
    (hist : List TokenTx) (limit : ℕ) : TokenInboundAcc :=
  tokenScan hist limit (tokenInStep parse tokenSenders username) since ⟨[], [], 0⟩

/-- Accumulator of `TokenEarningsService.analyzeOutbound`. -/
structure TokenOutboundAcc where
  perRecipient : List (String × List (String × ℚ))
  perRecipientTxCount : List (String × ℕ)
  perRecipientSymbolTxCount : List (String × List (String × ℕ))
  deriving DecidableEq

/-- One record's contribution in `TokenEarningsService.analyzeOutbound`
(lines 558-575): skipped when `from === to` or the recipient is ignored. -/
def tokenOutStep (parse : String → ℚ) (ignored : List String) (sender : String)
    (acc : TokenOutboundAcc) (tx : TokenTx) : TokenOutboundAcc :=
  let outbound := (tx.operation == "tokens_transfer" || tx.operation == "transfer" ||
    tx.operation == "tokens_stake" || tx.operation == "stake") && tx.from_ == sender
  let shouldIgnore := tx.from_ == tx.to_ || ignored.contains tx.to_
  if outbound && !shouldIgnore then
    ⟨addNestedAmt tx.to_ tx.symbol (parse tx.quantity) acc.perRecipient,
      addCount tx.to_ acc.perRecipientTxCount,
      addNestedCount tx.to_ tx.symbol acc.perRecipientSymbolTxCount⟩
  else acc

/-- `TokenEarningsService.analyzeOutbound(sender, sinceTs)`. -/
def tokenAnalyzeOutbound (parse : String → ℚ) (ignored : List String)
    (sender : String) (since : ℤ) (hist : List TokenTx) (limit : ℕ) :
    TokenOutboundAcc :=
  tokenScan hist limit (tokenOutStep parse ignored sender) since ⟨[], [], []⟩

/-- The records of a native history within the scan window, in processing
(newest-first) order. -/
def hiveChron (hist : List HiveEntry) (since : ℤ) : List (ℕ × HiveEntry) :=
  (hist.enum.filter (fun e => decide (since ≤ e.2.timestamp))).reverse

/-- The records of a token history within the scan window, in processing
(newest-first) order. -/
def tokenChron (hist : List TokenTx) (since : ℤ) : List TokenTx :=
  hist.filter (fun t => decide (since ≤ t.timestamp * 1000))

/-- The list of records a native scan actually processes (classifies). -/
def hiveScanProcessed (hist : List HiveEntry) (limit : ℕ) (since : ℤ) :
    List (ℕ × HiveEntry) :=
  hiveScan hist limit (fun l e => l ++ [e]) since []

/-- The list of records a token scan actually processes (classifies). -/
def tokenScanProcessed (hist : List TokenTx) (limit : ℕ) (since : ℤ) :
    List TokenTx :=
  tokenScan hist limit (fun l t => l ++ [t]) since []

theorem processPage_eq (ts : β → ℤ) (f : α → β → α) (since : ℤ) :
    ∀ (l : List β) (acc : α),
      processPage ts f since l acc =
        (List.foldl f acc (l.takeWhile (fun e => decide (since ≤ ts e))),
          l.all (fun e => decide (since ≤ ts e))) := by
  intro l
  induction l with
  | nil => intro acc; simp [processPage]
  | cons e rest ih =>
    intro acc
    by_cases h : ts e < since
    · have hnle : ¬ since ≤ ts e := by omega
      simp [processPage, h, hnle, List.takeWhile_cons]
    · have hle : since ≤ ts e := by omega
      simp [processPage, h, hle, List.takeWhile_cons, ih (f acc e)]

theorem takeWhile_eq_filter_of_sorted (ts : β → ℤ) (since : ℤ) :
    ∀ l : List β, List.Pairwise (fun a b => ts b ≤ ts a) l →
      l.takeWhile (fun e => decide (since ≤ ts e)) =
        l.filter (fun e => decide (since ≤ ts e)) := by
  intro l
  induction l with
  | nil => intro _; rfl
  | cons a rest ih =>
    intro hp
    rcases List.pairwise_cons.mp hp with ⟨ha, hrest⟩
    by_cases h : since ≤ ts a
    · simp [List.takeWhile_cons, List.filter_cons, h, ih hrest]
    · have hnil : rest.filter (fun e => decide (since ≤ ts e)) = [] := by
        refine List.filter_eq_nil_iff.mpr (fun b hb => ?_)
        have := ha b hb
        simp only [decide_eq_true_eq]
        omega
      simp [List.takeWhile_cons, List.filter_cons, h, hnil]

theorem foldl_eq_foldl_filter (f : α → β → α) (q : β → Bool)
    (hid : ∀ acc b, q b = false → f acc b = acc) :
    ∀ (L : List β) (acc : α),
      List.foldl f acc L = List.foldl f acc (L.filter q) := by
  intro L
  induction L with
  | nil => intro acc; rfl
  | cons b rest ih =>
    intro acc
    by_cases hb : q b
    · simp [List.filter_cons, hb, ih]
    · have hbf : q b = false := by simpa using hb
      simp [List.filter_cons, hbf, hid acc b hbf, ih]

theorem foldl_append_singleton :
    ∀ (L init : List β), List.foldl (fun l e => l ++ [e]) init L = init ++ L := by
  intro L
  induction L with
  | nil => intro init; simp
  | cons e rest ih =>
    intro init
    simp only [List.foldl_cons, ih (init ++ [e]), List.append_assoc,
      List.singleton_append]

theorem hiveScanGo_eq (hist : List HiveEntry) (limit : ℕ) (f : α → ℕ × HiveEntry → α)
    (since : ℤ) (hmono : List.Pairwise (fun a b => a.timestamp ≤ b.timestamp) hist)
    (hlim : 1 ≤ limit) :
    ∀ (fuel s : ℕ) (acc : α), s < hist.length → s + 1 ≤ fuel →
      hiveScanGo hist limit f since fuel s acc =
        List.foldl f acc
          (((hist.enum.take (s + 1)).filter
              (fun e => decide (since ≤ e.2.timestamp))).reverse) := by
  have henum : List.Pairwise
      (fun a b : ℕ × HiveEntry => a.2.timestamp ≤ b.2.timestamp) hist.enum := by
    have h1 : List.Pairwise (fun a b : HiveEntry => a.timestamp ≤ b.timestamp)
        (hist.enum.map Prod.snd) := by
      rw [List.enum_map_snd]; exact hmono
    exact (@List.pairwise_map (ℕ × HiveEntry) HiveEntry Prod.snd
      (fun a b => a.timestamp ≤ b.timestamp) hist.enum).mp h1
  intro fuel
  induction fuel with
  | zero => intro s acc hs hf; omega
  | succ fuel ih =>
    intro s acc hs hf
    have htake_pair := List.Pairwise.sublist (List.take_sublist (s + 1) hist.enum) henum
    have hpage_sub : (hivePage hist s limit).Sublist (hist.enum.take (s + 1)) := by
      simp only [hivePage]
      exact List.drop_sublist _ _
    have hpage_pair := List.Pairwise.sublist hpage_sub htake_pair
    have hrev_pair : List.Pairwise
        (fun a b : ℕ × HiveEntry => b.2.timestamp ≤ a.2.timestamp)
        (hivePage hist s limit).reverse :=
      List.pairwise_reverse.mpr hpage_pair
    have htl : (hist.enum.take (s + 1)).length = s + 1 := by
      rw [List.length_take, List.enum_length]
      omega
    have hplen : (hivePage hist s limit).length = (s + 1) - (s + 1 - limit) := by
      simp only [hivePage, List.length_drop, htl]
    have hne : hivePage hist s limit ≠ [] := by
      intro h
      have hl := congrArg List.length h
      rw [hplen] at hl
      simp only [List.length_nil] at hl
      omega
    have hiE : (hivePage hist s limit).isEmpty = false := by
      cases hpc : hivePage hist s limit with
      | nil => exact absurd hpc hne
      | cons a l => rfl
    have hsplit : hist.enum.take (s + 1) =
        hist.enum.take (s + 1 - limit) ++ hivePage hist s limit := by
      conv_lhs => rw [← List.take_append_drop (s + 1 - limit) (hist.enum.take (s + 1))]
      congr 1
      rw [List.take_take]
      congr 1
      omega
    rw [show hiveScanGo hist limit f since (fuel + 1) s acc =
        (let page := hivePage hist s limit
        if page.isEmpty then acc
        else
          let pr := processPage (fun e => e.2.timestamp) f since page.reverse acc
          if !pr.2 then pr.1
          else
            let lo := s + 1 - limit
            if lo = 0 then pr.1
            else hiveScanGo hist limit f since fuel (lo - 1) pr.1) from rfl]
    simp only [hiE, Bool.false_eq_true, if_false,
      processPage_eq (fun e : ℕ × HiveEntry => e.2.timestamp) f since]
    by_cases hall : ((hivePage hist s limit).reverse.all
        (fun e => decide (since ≤ e.2.timestamp))) = true
    · -- every record of the page is within the window: the page is fully
      -- consumed and the scan continues (or stops at the history start)
      have hmem : ∀ e ∈ hivePage hist s limit, decide (since ≤ e.2.timestamp) = true := by
        intro e he
        exact List.all_eq_true.mp hall e (List.mem_reverse.mpr he)
      have hfilter_page : (hivePage hist s limit).filter
          (fun e => decide (since ≤ e.2.timestamp)) = hivePage hist s limit :=
        List.filter_eq_self.mpr hmem
      have htw : ((hivePage hist s limit).reverse.takeWhile
          (fun e => decide (since ≤ e.2.timestamp))) = (hivePage hist s limit).reverse := by
        rw [takeWhile_eq_filter_of_sorted (fun e : ℕ × HiveEntry => e.2.timestamp)
          since _ hrev_pair]
        rw [List.filter_reverse, hfilter_page]
      simp only [hall, htw, Bool.not_true, Bool.false_eq_true, if_false]
      by_cases hlo : s + 1 - limit = 0
      · rw [if_pos hlo]
        rw [hsplit, hlo, List.take_zero, List.nil_append, hfilter_page]
      · rw [if_neg hlo]
        rw [ih (s + 1 - limit - 1) _ (by omega) (by omega)]
        have hlo1 : s + 1 - limit - 1 + 1 = s + 1 - limit := by omega
        rw [hlo1, hsplit, List.filter_append, hfilter_page, List.reverse_append,
          List.foldl_append]
    · -- some record of the page is older than the cutoff: the scan stops,
      -- having consumed exactly the in-window records
      have hallf : ((hivePage hist s limit).reverse.all
          (fun e => decide (since ≤ e.2.timestamp))) = false := by
        simpa using hall
      obtain ⟨e0, he0mem, he0⟩ := List.all_eq_false.mp hallf
      have he0ts : e0.2.timestamp < since := by
        simpa using he0
      have he0page : e0 ∈ hivePage hist s limit := List.mem_reverse.mp he0mem
      have hfilter_lo : (hist.enum.take (s + 1 - limit)).filter
          (fun e => decide (since ≤ e.2.timestamp)) = [] := by
        refine List.filter_eq_nil_iff.mpr (fun b hb => ?_)
        have hpair := List.pairwise_append.mp (by rw [← hsplit]; exact htake_pair)
        have hble : b.2.timestamp ≤ e0.2.timestamp := hpair.2.2 b hb e0 he0page
        simp only [decide_eq_true_eq]
        omega
      have htw : ((hivePage hist s limit).reverse.takeWhile
          (fun e => decide (since ≤ e.2.timestamp))) =
          ((hivePage hist s limit).filter
            (fun e => decide (since ≤ e.2.timestamp))).reverse := by
        rw [takeWhile_eq_filter_of_sorted (fun e : ℕ × HiveEntry => e.2.timestamp)
          since _ hrev_pair]
        rw [List.filter_reverse]
      simp only [hallf, Bool.not_false, if_true, htw]
      rw [hsplit, List.filter_append, hfilter_lo, List.nil_append]

/-- `hiveScan` over a monotone history folds exactly the in-window records,
newest first. -/
theorem hiveScan_eq (hist : List HiveEntry) (limit : ℕ) (f : α → ℕ × HiveEntry → α)
    (since : ℤ) (init : α)
    (hmono : List.Pairwise (fun a b => a.timestamp ≤ b.timestamp) hist)
    (hlim : 1 ≤ limit) :
    hiveScan hist limit f since init = List.foldl f init (hiveChron hist since) := by
  cases hh : hist with
  | nil => rfl
  | cons a l =>
    have hlen : 0 < hist.length := by rw [hh]; simp
    have h := hiveScanGo_eq hist limit f since hmono hlim hist.length
      (hist.length - 1) init (by omega) (by omega)
    rw [hiveScan, ← hh, h, hiveChron]
    congr 2
    have : hist.length - 1 + 1 = hist.length := by omega
    rw [this, ← List.enum_length, List.take_length]

theorem tokenScanGo_eq (hist : List TokenTx) (limit : ℕ) (f : α → TokenTx → α)
    (since : ℤ) (hmono : List.Pairwise (fun a b => b.timestamp ≤ a.timestamp) hist)
    (hlim : 1 ≤ limit) :
    ∀ (fuel offset : ℕ) (acc : α), hist.length - offset < fuel →
      tokenScanGo hist limit f since fuel offset acc =
        List.foldl f acc
          ((hist.drop offset).filter (fun t => decide (since ≤ t.timestamp * 1000))) := by
  intro fuel
  induction fuel with
  | zero => intro offset acc h; omega
  | succ fuel ih =>
    intro offset acc hfu
    rw [show tokenScanGo hist limit f since (fuel + 1) offset acc =
        (let page := (hist.drop offset).take limit
        if page.isEmpty then acc
        else
          let pr := processPage (fun t => t.timestamp * 1000) f since page acc
          if !pr.2 then pr.1
          else tokenScanGo hist limit f since fuel (offset + limit) pr.1) from rfl]
    by_cases hoff : hist.length ≤ offset
    · have hdrop : hist.drop offset = [] := List.drop_eq_nil_of_le hoff
      simp [hdrop]
    · push_neg at hoff
      have hpage_ne : (hist.drop offset).take limit ≠ [] := by
        intro h
        have hl := congrArg List.length h
        rw [List.length_take, List.length_drop] at hl
        simp only [List.length_nil] at hl
        omega
      have hiE : ((hist.drop offset).take limit).isEmpty = false := by
        cases hpc : (hist.drop offset).take limit with
        | nil => exact absurd hpc hpage_ne
        | cons a l => rfl
      have hdrop_pair := List.Pairwise.sublist (List.drop_sublist offset hist) hmono
      have hpage_pair :=
        List.Pairwise.sublist (List.take_sublist limit (hist.drop offset)) hdrop_pair
      have hpage_pair1000 : List.Pairwise
          (fun a b : TokenTx => b.timestamp * 1000 ≤ a.timestamp * 1000)
          ((hist.drop offset).take limit) :=
        hpage_pair.imp (fun h => by omega)
      have hsplit : hist.drop offset =
          (hist.drop offset).take limit ++ hist.drop (offset + limit) := by
        conv_lhs => rw [← List.take_append_drop limit (hist.drop offset)]
        rw [List.drop_drop]
      simp only [hiE, Bool.false_eq_true, if_false,
        processPage_eq (fun t : TokenTx => t.timestamp * 1000) f since]
      by_cases hall : (((hist.drop offset).take limit).all
          (fun t => decide (since ≤ t.timestamp * 1000))) = true
      · have hmem : ∀ t ∈ (hist.drop offset).take limit,
            decide (since ≤ t.timestamp * 1000) = true := List.all_eq_true.mp hall
        have hfilter_page : ((hist.drop offset).take limit).filter
            (fun t => decide (since ≤ t.timestamp * 1000)) =
            (hist.drop offset).take limit := List.filter_eq_self.mpr hmem
        have htw : (((hist.drop offset).take limit).takeWhile
            (fun t => decide (since ≤ t.timestamp * 1000))) =
            (hist.drop offset).take limit := by
          rw [takeWhile_eq_filter_of_sorted (fun t : TokenTx => t.timestamp * 1000)
            since _ hpage_pair1000, hfilter_page]
        simp only [hall, htw, Bool.not_true, Bool.false_eq_true, if_false]
        rw [ih (offset + limit) _ (by omega)]
        conv_rhs => rw [hsplit]
        rw [List.filter_append, hfilter_page, List.foldl_append]
      · have hallf : (((hist.drop offset).take limit).all
            (fun t => decide (since ≤ t.timestamp * 1000))) = false := by
          simpa using hall
        obtain ⟨t0, ht0mem, ht0⟩ := List.all_eq_false.mp hallf
        have ht0ts : t0.timestamp * 1000 < since := by simpa using ht0
        have hfilter_rest : (hist.drop (offset + limit)).filter
            (fun t => decide (since ≤ t.timestamp * 1000)) = [] := by
          refine List.filter_eq_nil_iff.mpr (fun b hb => ?_)
          have hpair := List.pairwise_append.mp (by rw [← hsplit]; exact hdrop_pair)
          have hble : b.timestamp ≤ t0.timestamp := hpair.2.2 t0 ht0mem b hb
          simp only [decide_eq_true_eq]
          omega
        have htw : (((hist.drop offset).take limit).takeWhile
            (fun t => decide (since ≤ t.timestamp * 1000))) =
            ((hist.drop offset).take limit).filter
              (fun t => decide (since ≤ t.timestamp * 1000)) :=
          takeWhile_eq_filter_of_sorted (fun t : TokenTx => t.timestamp * 1000)
            since _ hpage_pair1000
        simp only [hallf, htw, Bool.not_false, if_true]
        conv_rhs => rw [hsplit]
        rw [List.filter_append, hfilter_rest, List.append_nil]

/-- `tokenScan` over a monotone (newest-first) history folds exactly the
in-window records, in page order. -/
theorem tokenScan_eq (hist : List TokenTx) (limit : ℕ) (f : α → TokenTx → α)
    (since : ℤ) (init : α)
    (hmono : List.Pairwise (fun a b => b.timestamp ≤ a.timestamp) hist)
    (hlim : 1 ≤ limit) :
    tokenScan hist limit f since init = List.foldl f init (tokenChron hist since) := by
  have h := tokenScanGo_eq hist limit f since hmono hlim (hist.length + 1) 0 init
    (by omega)
  rw [tokenScan, h, tokenChron, List.drop_zero]

/-- C1: for every account history with monotone timestamps and every page
size ≥ 1, scanning with cutoff `since` processes exactly the records with
timestamp ≥ `since` (the first older record stops the scan — it and all
older records are excluded — and an empty page terminates it): the
processed-record stream of both paginators equals the in-window record
stream, and consequently each of the four analyzers (inbound/outbound on
the native and on the token ledger) equals a plain fold over exactly those
records. -/
theorem c1_pagination_window (parse : String → ℚ)
    (hiveSenders tokenSenders : List (String × String)) (username sender : String)
    (ignored : List String) (hist : List HiveEntry) (tokHist : List TokenTx)
    (limit tlimit : ℕ) (since : ℤ)
    (hmono : List.Pairwise (fun a b => a.timestamp ≤ b.timestamp) hist)
    (htmono : List.Pairwise (fun a b => b.timestamp ≤ a.timestamp) tokHist)
    (hlim : 1 ≤ limit) (htlim : 1 ≤ tlimit) :
    hiveScanProcessed hist limit since = hiveChron hist since ∧
    tokenScanProcessed tokHist tlimit since = tokenChron tokHist since ∧
    hiveAnalyzeInbound parse hiveSenders username since hist limit =
      hiveInboundFinish
        (List.foldl (hiveInStep parse hiveSenders username)
          (hiveInboundInit hiveSenders) (hiveChron hist since)) ∧
    hiveAnalyzeOutbound parse ignored sender since hist limit =
      List.foldl (hiveOutStep parse ignored sender) ⟨[], []⟩ (hiveChron hist since) ∧
    tokenAnalyzeInboundScan parse tokenSenders username since tokHist tlimit =
      List.foldl (tokenInStep parse tokenSenders username) ⟨[], [], 0⟩
        (tokenChron tokHist since) ∧
    tokenAnalyzeOutbound parse ignored sender since tokHist tlimit =
      List.foldl (tokenOutStep parse ignored sender) ⟨[], [], []⟩
        (tokenChron tokHist since) := by
  refine ⟨?_, ?_, ?_, ?_, ?_, ?_⟩
  · rw [hiveScanProcessed, hiveScan_eq _ _ _ _ _ hmono hlim,
      foldl_append_singleton, List.nil_append]
  · rw [tokenScanProcessed, tokenScan_eq _ _ _ _ _ htmono htlim,
      foldl_append_singleton, List.nil_append]
  · rw [hiveAnalyzeInbound, hiveScan_eq _ _ _ _ _ hmono hlim]
  · rw [hiveAnalyzeOutbound, hiveScan_eq _ _ _ _ _ hmono hlim]
  · rw [tokenAnalyzeInboundScan, tokenScan_eq _ _ _ _ _ htmono htlim]
  · rw [tokenAnalyzeOutbound, tokenScan_eq _ _ _ _ _ htmono htlim]

/-- A three-record native history with timestamps 10000 < 20000 < 30000. -/
def sampleHiveHist : List HiveEntry :=
  [⟨"transfer", ⟨"a", "b", "1.000 HIVE"⟩, 10000⟩,
   ⟨"transfer", ⟨"a", "b", "2.000 HIVE"⟩, 20000⟩,
   ⟨"transfer", ⟨"a", "b", "3.000 HIVE"⟩, 30000⟩]

/-- A three-record token history (newest first), unix seconds 30 > 20 > 10. -/
def sampleTokenHist : List TokenTx :=
  [⟨"transfer", "SIM", "3", "a", "b", 30⟩,
   ⟨"transfer", "SIM", "2", "a", "b", 20⟩,
   ⟨"transfer", "SIM", "1", "a", "b", 10⟩]

/-- Witness for C1 at page size 1 and cutoff `T1 = 20000`: both scans
process exactly the two newest records. -/
theorem c1_witness :
    hiveScanProcessed sampleHiveHist 1 20000 = hiveChron sampleHiveHist 20000 ∧
    hiveChron sampleHiveHist 20000 =
      [(2, ⟨"transfer", ⟨"a", "b", "3.000 HIVE"⟩, 30000⟩),
       (1, ⟨"transfer", ⟨"a", "b", "2.000 HIVE"⟩, 20000⟩)] ∧
    tokenScanProcessed sampleTokenHist 1 20000 = tokenChron sampleTokenHist 20000 ∧
    tokenChron sampleTokenHist 20000 =
      [⟨"transfer", "SIM", "3", "a", "b", 30⟩,
       ⟨"transfer", "SIM", "2", "a", "b", 20⟩] := by
  have h := c1_pagination_window (fun _ => 1) [] [] "u" "s" [] sampleHiveHist
    sampleTokenHist 1 1 20000 (by decide) (by decide) (by decide) (by decide)
  exact ⟨h.1, by decide, h.2.1, by decide⟩

/-- C2 counterexample: the native inbound scan has no self-transfer (nor
ignore-list) exclusion — `inbound = to === username &&
senderAccounts.includes(from) && ...` (lines 348-351).  A self-transfer
(`from == to == "alice"`) from a tracked sender account is counted:
`totHiveSent = 5 ≠ 0`. -/
theorem c2_counterexample :
    (HiveOpData.mk "alice" "alice" "5.000 HIVE").from_ =
      (HiveOpData.mk "alice" "alice" "5.000 HIVE").to_ ∧
    (hiveAnalyzeInbound (fun _ => 5) [("K", "alice")] "alice" 0
        [⟨"transfer", ⟨"alice", "alice", "5.000 HIVE"⟩, 100⟩] 1).totHiveTransactions
      = 1 := by
  exact ⟨rfl, by decide⟩

/-- C2 as amended: in the two outbound scans (native and token ledger),
self-transfers (`from == to`) and records whose recipient is on the
ignore-list are excluded from all accumulated sums and counts regardless
of the rest of the classification: each outbound analyzer equals the fold
over the in-window records with those records removed.  (The inbound scans
apply no such exclusion — see the counterexample.) -/
theorem c2_outbound_exclusions (parse : String → ℚ) (ignored : List String)
    (sender : String) (since : ℤ) (hist : List HiveEntry) (tokHist : List TokenTx)
    (limit tlimit : ℕ)
    (hmono : List.Pairwise (fun a b => a.timestamp ≤ b.timestamp) hist)
    (htmono : List.Pairwise (fun a b => b.timestamp ≤ a.timestamp) tokHist)
    (hlim : 1 ≤ limit) (htlim : 1 ≤ tlimit) :
    hiveAnalyzeOutbound parse ignored sender since hist limit =
      List.foldl (hiveOutStep parse ignored sender) ⟨[], []⟩
        ((hiveChron hist since).filter
          (fun e => !(e.2.opData.from_ == e.2.opData.to_ ||
            ignored.contains e.2.opData.to_))) ∧
    tokenAnalyzeOutbound parse ignored sender since tokHist tlimit =
      List.foldl (tokenOutStep parse ignored sender) ⟨[], [], []⟩
        ((tokenChron tokHist since).filter
          (fun t => !(t.from_ == t.to_ || ignored.contains t.to_))) := by
  constructor
  · rw [hiveAnalyzeOutbound, hiveScan_eq _ _ _ _ _ hmono hlim]
    apply foldl_eq_foldl_filter
    intro acc e hq
    simp only [Bool.not_eq_false'] at hq
    simp only [hiveOutStep]
    rw [if_neg]
    intro hcond
    rw [Bool.and_eq_true] at hcond
    rw [hq] at hcond
    simp at hcond
  · rw [tokenAnalyzeOutbound, tokenScan_eq _ _ _ _ _ htmono htlim]
    apply foldl_eq_foldl_filter
    intro acc t hq
    simp only [Bool.not_eq_false'] at hq
    simp only [tokenOutStep]
    rw [if_neg]
    intro hcond
    rw [Bool.and_eq_true] at hcond
    rw [hq] at hcond
    simp at hcond

/-- Witness for C2 as amended: a native transfer to an ignored recipient
and a token self-transfer leave both outbound accumulators empty. -/
theorem c2_witness :
    hiveAnalyzeOutbound (fun _ => 5) ["ig"] "s" 0
        [⟨"transfer", ⟨"s", "ig", "5.000 HIVE"⟩, 100⟩] 1 = ⟨[], []⟩ ∧
    tokenAnalyzeOutbound (fun _ => 5) ["ig"] "s" 0
        [⟨"transfer", "SIM", "5", "s", "s", 100⟩] 1 = ⟨[], [], []⟩ := by
  have h := c2_outbound_exclusions (fun _ => 5) ["ig"] "s" 0
    [⟨"transfer", ⟨"s", "ig", "5.000 HIVE"⟩, 100⟩]
    [⟨"transfer", "SIM", "5", "s", "s", 100⟩] 1 1
    (by decide) (by decide) (by decide) (by decide)
  exact ⟨h.1.trans (by decide), h.2.trans (by decide)⟩

/-- C9: in the native-ledger scans (inbound and outbound), only operations
with `opName === 'transfer'` whose amount string ends in `' HIVE'`
contribute to the accumulated sums and counts: each native analyzer equals
the fold over only those in-window records, so transfers denominated in
any other native asset (e.g. HBD) are silently excluded even when sender,
receiver and window match. -/
theorem c9_hive_asset_only (parse : String → ℚ)
    (hiveSenders : List (String × String)) (username : String)
    (ignored : List String) (sender : String) (since : ℤ)
    (hist : List HiveEntry) (limit : ℕ)
    (hmono : List.Pairwise (fun a b => a.timestamp ≤ b.timestamp) hist)
    (hlim : 1 ≤ limit) :
    hiveAnalyzeInbound parse hiveSenders username since hist limit =
      hiveInboundFinish
        (List.foldl (hiveInStep parse hiveSenders username)
          (hiveInboundInit hiveSenders)
          ((hiveChron hist since).filter
            (fun e => e.2.opName == "transfer" &&
              strEndsWith e.2.opData.amount " HIVE"))) ∧
    hiveAnalyzeOutbound parse ignored sender since hist limit =
      List.foldl (hiveOutStep parse ignored sender) ⟨[], []⟩
        ((hiveChron hist since).filter
          (fun e => e.2.opName == "transfer" &&
            strEndsWith e.2.opData.amount " HIVE")) := by
  constructor
  · rw [hiveAnalyzeInbound, hiveScan_eq _ _ _ _ _ hmono hlim]
    congr 1
    apply foldl_eq_foldl_filter
    intro acc e hq
    simp only [hiveInStep]
    rw [if_neg]
    intro hcond
    simp only [Bool.and_eq_true] at hcond
    rw [hcond.1.2, hcond.2] at hq
    simp at hq
  · rw [hiveAnalyzeOutbound, hiveScan_eq _ _ _ _ _ hmono hlim]
    apply foldl_eq_foldl_filter
    intro acc e hq
    simp only [hiveOutStep]
    rw [if_neg]
    intro hcond
    simp only [Bool.and_eq_true] at hcond
    rw [hcond.1.1.2, hcond.1.2] at hq
    simp at hq

/-- Witness for C9: an in-window HBD transfer from a tracked sender to the
scanned receiver contributes nothing on either scan direction. -/
theorem c9_witness :
    (hiveAnalyzeInbound (fun _ => 5) [("K", "a")] "b" 0
        [⟨"transfer", ⟨"a", "b", "5.000 HBD"⟩, 100⟩] 1).totHiveSent = 0 ∧
    hiveAnalyzeOutbound (fun _ => 5) [] "a" 0
        [⟨"transfer", ⟨"a", "b", "5.000 HBD"⟩, 100⟩] 1 = ⟨[], []⟩ := by
  have h := c9_hive_asset_only (fun _ => 5) [("K", "a")] "b" [] "a" 0
    [⟨"transfer", ⟨"a", "b", "5.000 HBD"⟩, 100⟩] 1 (by decide) (by decide)
  constructor
  · rw [h.1]
    decide
  · exact h.2.trans (by decide)

/- ----------------------------------------------------------------------- -/
/- Endpoint selection: getNodeEndpoint (src/apis/beacon.js, lines 206-234)  -/
/- ----------------------------------------------------------------------- -/

/-- The per-service-class node cache `{nodes, lastFetch}` of beacon.js. -/
structure NodeCache where
  nodes : List String
  lastFetch : ℤ
  deriving DecidableEq

/-- `getNodeEndpoint({type, prevUrl}, attempt, baseDelay)` for one service
class.  `refreshResult` is the list `refreshNodes` would install (the
filtered beacon feed, or the static defaults — external data), `alive`
the HEAD connectivity probe, and `pick l` the index drawn by
`Math.floor(Math.random() * l.length)`.  The body: drop `prevUrl` from the
cached list; refresh when the list is empty or older than `staleMs`
(`refreshNodes` replaces the whole list, `prevUrl` included if the feed
still lists it); fail when still empty; draw a random url; probe it;
on probe failure evict it and recurse with `attempt + 1`, failing at
`attempt = 3`.  `fuel ≥ 3` makes the fuel irrelevant. -/
def getNodeEndpointGo (refreshResult : List String) (alive : String → Bool)
    (pick : List String → ℕ) (now staleMs : ℤ) (prevUrl : Option String) :
    ℕ → ℕ → NodeCache → Except String (String × NodeCache)
  | 0, _, _ => .error "client has no connectivity"
  | fuel + 1, attempt, cache0 =>
    let cache1 : NodeCache :=
      match prevUrl with
      | some p => { cache0 with nodes := cache0.nodes.filter (fun n => n ≠ p) }
      | none => cache0
    let needRefresh := cache1.nodes.isEmpty || staleMs < now - cache1.lastFetch
    let cache2 : NodeCache :=
      if needRefresh then { nodes := refreshResult, lastFetch := now } else cache1
    if cache2.nodes.isEmpty then .error "No healthy nodes available"
    else
      let url := cache2.nodes.getD (pick cache2.nodes) ""
      if alive url then .ok (url, cache2)
      else if attempt = 3 then .error "client has no connectivity"
      else
        getNodeEndpointGo refreshResult alive pick now staleMs prevUrl fuel
          (attempt + 1) { cache2 with nodes := cache2.nodes.filter (fun n => n ≠ url) }

/-- `getNodeEndpoint` as called by the API wrappers on every retry attempt
after the first (`getNodeEndpoint({type, prevUrl: previousEndpoint})`),
starting at `attempt = 1`. -/
def getNodeEndpoint (refreshResult : List String) (alive : String → Bool)
    (pick : List String → ℕ) (now staleMs : ℤ) (prevUrl : Option String)
    (cache : NodeCache) : Except String (String × NodeCache) :=
  getNodeEndpointGo refreshResult alive pick now staleMs prevUrl 3 1 cache

theorem getNodeEndpointGo_ne_prev (refreshResult : List String)
    (alive : String → Bool) (pick : List String → ℕ) (now staleMs : ℤ)
    (prev : String)
    (hpick : ∀ l : List String, l ≠ [] → pick l < l.length)
    (href : prev ∉ refreshResult) :
    ∀ (fuel attempt : ℕ) (cache : NodeCache) (url : String) (cache' : NodeCache),
      getNodeEndpointGo refreshResult alive pick now staleMs (some prev) fuel
          attempt cache = .ok (url, cache') →
        url ≠ prev := by
  intro fuel
  induction fuel with
  | zero => intro attempt cache url cache' h; exact absurd h (by simp [getNodeEndpointGo])
  | succ fuel ih =>
    intro attempt cache url cache' h
    rw [show getNodeEndpointGo refreshResult alive pick now staleMs (some prev)
        (fuel + 1) attempt cache =
        (let cache1 : NodeCache :=
          { cache with nodes := cache.nodes.filter (fun n => n ≠ prev) }
        let needRefresh := cache1.nodes.isEmpty || staleMs < now - cache1.lastFetch
        let cache2 : NodeCache :=
          if needRefresh then { nodes := refreshResult, lastFetch := now } else cache1
        if cache2.nodes.isEmpty then .error "No healthy nodes available"
        else
          let url := cache2.nodes.getD (pick cache2.nodes) ""
          if alive url then .ok (url, cache2)
          else if attempt = 3 then .error "client has no connectivity"
          else
            getNodeEndpointGo refreshResult alive pick now staleMs (some prev) fuel
              (attempt + 1)
              { cache2 with nodes := cache2.nodes.filter (fun n => n ≠ url) })
        from rfl] at h
    set cache1 : NodeCache :=
      { cache with nodes := cache.nodes.filter (fun n => n ≠ prev) } with hc1
    set cache2 : NodeCache :=
      if cache1.nodes.isEmpty || staleMs < now - cache1.lastFetch then
        { nodes := refreshResult, lastFetch := now } else cache1 with hc2
    have hnotmem : prev ∉ cache2.nodes := by
      rw [hc2]
      split
      · exact href
      · intro hmem
        have := (List.mem_filter.mp hmem).2
        simp at this
    by_cases hemp : cache2.nodes.isEmpty = true
    · rw [if_pos hemp] at h
      exact absurd h (by simp)
    · rw [if_neg hemp] at h
      have hne2 : cache2.nodes ≠ [] := by
        intro hnil
        rw [hnil] at hemp
        exact hemp rfl
      have hlt : pick cache2.nodes < cache2.nodes.length := hpick _ hne2
      have hmem : cache2.nodes.getD (pick cache2.nodes) "" ∈ cache2.nodes := by
        rw [List.getD_eq_getElem _ _ hlt]
        exact List.getElem_mem hlt
      by_cases halive : alive (cache2.nodes.getD (pick cache2.nodes) "") = true
      · rw [if_pos halive] at h
        have hurl : url = cache2.nodes.getD (pick cache2.nodes) "" := by
          cases h
          rfl
        rw [hurl]
        intro heq
        rw [heq] at hmem
        exact hnotmem hmem
      · rw [if_neg halive] at h
        by_cases hatt : attempt = 3
        · rw [if_pos hatt] at h
          exact absurd h (by simp)
        · rw [if_neg hatt] at h
          exact ih _ _ _ _ h

/-- C4 counterexample: when the cached list is stale (or emptied), the
exclusion of the previous endpoint is lost — `refreshNodes` reinstalls the
full feed list, `prevUrl` included, and the random draw may return it.
Here the call made for the retry attempt (previous endpoint `"A"`,
stale cache) returns `"A"` again, so two consecutive attempts use the
same endpoint even though the cache was refreshed between them. -/
theorem c4_counterexample :
    getNodeEndpoint ["A", "B"] (fun _ => true) (fun _ => 0) 1000000000 600000
        (some "A") ⟨["A", "B"], 0⟩ =
      .ok ("A", ⟨["A", "B"], 1000000000⟩) := by
  rfl

/-- C4 as amended: the endpoint obtained for attempt `n` (via
`getNodeEndpoint` with `prevUrl` = the endpoint of attempt `n-1`) differs
from the previous endpoint whenever the list a refresh would install does
not itself contain the previous endpoint — in particular when no refresh
occurs; a refresh that reinstalls the previous endpoint can return it
again (see the counterexample). -/
theorem c4_rotation (refreshResult : List String) (alive : String → Bool)
    (pick : List String → ℕ) (now staleMs : ℤ) (prev : String)
    (cache : NodeCache) (url : String) (cache' : NodeCache)
    (hpick : ∀ l : List String, l ≠ [] → pick l < l.length)
    (href : prev ∉ refreshResult)
    (h : getNodeEndpoint refreshResult alive pick now staleMs (some prev) cache =
      .ok (url, cache')) :
    url ≠ prev :=
  getNodeEndpointGo_ne_prev refreshResult alive pick now staleMs prev hpick href
    3 1 cache url cache' h

/-- Witness for C4 as amended at a fresh one-node cache. -/
theorem c4_witness : ("B" : String) ≠ "A" :=
  c4_rotation ["B"] (fun _ => true) (fun _ => 0) 0 600000 "A" ⟨["B"], 0⟩ "B"
    ⟨["B"], 0⟩ (fun l hl => List.length_pos.mpr hl) (by decide) (by rfl)

/- ----------------------------------------------------------------------- -/
/- Prices: HivePriceProvider.getHiveUsd and HiveEngineApi.getTokenPriceUsd  -/
/- (src/apis/apis.js, lines 37-56 and 59-84)                                -/
/- ----------------------------------------------------------------------- -/

/-- The memo `{ts, val}` of `HivePriceProvider`. -/
structure PriceMemo where
  ts : ℤ
  val : ℚ
  deriving DecidableEq

/-- The fetch-and-memoise tail of the `getHiveUsd` body: `fetchOut` is the
outcome of `fetchRetry(...).then(r => r.json())` followed by
`data?.hive?.usd` (`.error ()` = the fetch rejected after its own retries,
`.ok none` = JSON without a usable `hive.usd` field, `.ok (some v)` = value
`v`); the memo is updated only when the value is truthy (`if (val)`), and
`val ?? 0` is returned. -/
def getHiveUsdFetch (now : ℤ) (fetchOut : Except Unit (Option ℚ))
    (memo : Option PriceMemo) : Except Unit (ℚ × Option PriceMemo) :=
  match fetchOut with
  | .error e => .error e
  | .ok val =>
    let memo1 :=
      match val with
      | some v => if v ≠ 0 then some (PriceMemo.mk now v) else memo
      | none => memo
    .ok (val.getD 0, memo1)

/-- One execution of the function `getHiveUsd` passes to `withRetries`
(src/apis/apis.js, lines 72-83): return the memoised value while
`now - memo.ts < cacheMs`, otherwise fetch. -/
def getHiveUsdOnce (cacheMs now : ℤ) (fetchOut : Except Unit (Option ℚ))
    (memo : Option PriceMemo) : Except Unit (ℚ × Option PriceMemo) :=
  match memo with
  | some m =>
    if now - m.ts < cacheMs then .ok (m.val, memo)
    else getHiveUsdFetch now fetchOut memo
  | none => getHiveUsdFetch now fetchOut memo

/-- `getHiveUsd = async () => withRetries(async () => {...})`: the memo is
written only by a successful attempt, so every attempt starts from the
same memo; `nows k` and `fetchOuts k` give `Date.now()` and the fetch
outcome of attempt `k`. -/
def getHiveUsd (cacheMs : ℤ) (nows : ℕ → ℤ) (fetchOuts : ℕ → Except Unit (Option ℚ))
    (memo : Option PriceMemo) : RetryTrace Unit (ℚ × Option PriceMemo) :=
  withRetries (fun attempt => getHiveUsdOnce cacheMs (nows attempt)
    (fetchOuts attempt) memo) 3 300

/-- C7 counterexample: with a stale memoised value `5` and a fetch that
fails on every attempt, `getHiveUsd` propagates the error — it does not
fall back to the stale value (`.ok (5, _)`) nor to zero (`.ok (0, _)`). -/
theorem c7_counterexample :
    (getHiveUsd 600000 (fun _ => 1000000000) (fun _ => .error ())
        (some ⟨0, 5⟩)).result = .error (some ()) := by
  rfl

theorem getHiveUsdFetch_ok (now : ℤ) (fetchOut : Except Unit (Option ℚ))
    (memo : Option PriceMemo) (v : ℚ) (memo1 : Option PriceMemo)
    (h : getHiveUsdFetch now fetchOut memo = .ok (v, memo1)) :
    memo1 = memo ∨ (fetchOut = .ok (some v) ∧ v ≠ 0 ∧ memo1 = some ⟨now, v⟩) := by
  cases fetchOut with
  | error e => simp [getHiveUsdFetch] at h
  | ok val =>
    cases val with
    | none =>
      simp only [getHiveUsdFetch, Option.getD_none] at h
      rw [Except.ok.injEq, Prod.mk.injEq] at h
      exact Or.inl h.2.symm
    | some v0 =>
      simp only [getHiveUsdFetch, Option.getD_some] at h
      by_cases hv : v0 ≠ 0
      · rw [if_pos hv] at h
        rw [Except.ok.injEq, Prod.mk.injEq] at h
        obtain ⟨h1, h2⟩ := h
        subst h1
        exact Or.inr ⟨rfl, hv, h2.symm⟩
      · rw [if_neg hv] at h
        rw [Except.ok.injEq, Prod.mk.injEq] at h
        exact Or.inl h.2.symm

/-- C7 as amended: a memoised value younger than the TTL is returned as-is
with a single attempt and no dependence on the fetch; the memo is updated
only by a successful fetch with a truthy value; a successful fetch without
a usable value returns `0` (keeping the memo) rather than the stale value;
but a fetch that fails on every attempt propagates the error to the
caller instead of returning the stale (or zero) fallback. -/
theorem c7_price_memo (cacheMs : ℤ) (nows : ℕ → ℤ)
    (fetchOuts : ℕ → Except Unit (Option ℚ)) (memo : Option PriceMemo)
    (m : PriceMemo) :
    (memo = some m → nows 0 - m.ts < cacheMs →
      (getHiveUsd cacheMs nows fetchOuts memo).result = .ok (m.val, memo) ∧
      (getHiveUsd cacheMs nows fetchOuts memo).calls = 1) ∧
    (∀ now fetchOut v memo1,
      getHiveUsdOnce cacheMs now fetchOut memo = .ok (v, memo1) →
      memo1 = memo ∨ (fetchOut = .ok (some v) ∧ v ≠ 0 ∧ memo1 = some ⟨now, v⟩)) ∧
    (∀ now, memo = none ∨ (memo = some m ∧ ¬ (now - m.ts < cacheMs)) →
      getHiveUsdOnce cacheMs now (.ok none) memo = .ok (0, memo)) ∧
    ((∀ k, k < 3 → fetchOuts k = .error ()) →
      (memo = none ∨ (memo = some m ∧ ∀ k, k < 3 → ¬ (nows k - m.ts < cacheMs))) →
      (getHiveUsd cacheMs nows fetchOuts memo).result = .error (some ())) := by
  refine ⟨?_, ?_, ?_, ?_⟩
  · intro hm hfresh
    subst hm
    have h0 : getHiveUsdOnce cacheMs (nows 0) (fetchOuts 0) (some m) =
        .ok (m.val, some m) := by
      simp [getHiveUsdOnce, hfresh]
    constructor
    · simp [getHiveUsd, withRetries, withRetriesAux, h0]
    · simp [getHiveUsd, withRetries, withRetriesAux, h0]
  · intro now fetchOut v memo1 h
    cases hmm : memo with
    | none =>
      subst hmm
      exact getHiveUsdFetch_ok now fetchOut none v memo1 h
    | some mm =>
      subst hmm
      by_cases hfresh : now - mm.ts < cacheMs
      · simp only [getHiveUsdOnce, if_pos hfresh] at h
        rw [Except.ok.injEq, Prod.mk.injEq] at h
        exact Or.inl h.2.symm
      · simp only [getHiveUsdOnce, if_neg hfresh] at h
        exact getHiveUsdFetch_ok now fetchOut (some mm) v memo1 h
  · intro now hcase
    rcases hcase with hnone | ⟨hsome, hstale⟩
    · subst hnone
      simp [getHiveUsdOnce, getHiveUsdFetch]
    · subst hsome
      simp [getHiveUsdOnce, if_neg hstale, getHiveUsdFetch]
  · intro hfail hcase
    have hstep : ∀ k, k < 3 →
        getHiveUsdOnce cacheMs (nows k) (fetchOuts k) memo = .error () := by
      intro k hk
      rcases hcase with hnone | ⟨hsome, hstale⟩
      · subst hnone
        simp [getHiveUsdOnce, getHiveUsdFetch, hfail k hk]
      · subst hsome
        simp [getHiveUsdOnce, if_neg (hstale k hk), getHiveUsdFetch, hfail k hk]
    have h := withRetriesAux_allFail
      (fun attempt => getHiveUsdOnce cacheMs (nows attempt) (fetchOuts attempt) memo)
      300 (fun _ => ()) 3 0 none (fun k hk1 hk2 => hstep k (by omega))
    simpa [getHiveUsd, withRetries] using h

/-- Witness for C7 as amended, at a fresh memoised value `5`. -/
theorem c7_witness :
    (getHiveUsd 10 (fun _ => 1) (fun _ => .error ()) (some ⟨0, 5⟩)).result =
      .ok (5, some ⟨0, 5⟩) :=
  ((c7_price_memo 10 (fun _ => 1) (fun _ => .error ()) (some ⟨0, 5⟩) ⟨0, 5⟩).1
    rfl (by decide)).1

/-- One row of the `market.metrics` JSON-RPC `find` response. -/
structure MarketRow where
  lastPrice : Option ℚ
  deriving DecidableEq

/-- `HiveEngineApi.getTokenPriceUsd({symbol, hiveUsd})` (src/apis/apis.js,
lines 37-56): `const lastPrice = res?.result?.[0]?.lastPrice;
return { price: lastPrice ? +lastPrice * hiveUsd : 0 }`.  `res = none`
models a response without a `result` array; a numeric-falsy `lastPrice`
also yields `0` (in JS a `"0"` string is truthy but `+"0" * hiveUsd` is
`0` as well). -/
def getTokenPriceUsd (res : Option (List MarketRow)) (hiveUsd : ℚ) : ℚ :=
  match (res.getD []).head? with
  | none => 0
  | some row =>
    match row.lastPrice with
    | none => 0
    | some p => if p ≠ 0 then p * hiveUsd else 0

/-- `TokenEarningsService.getTokenPriceUsd` (orchestrator.js line 440):
the API call wrapped in `withRetries`. -/
def tokenGetTokenPriceUsd (res : Option (List MarketRow)) (hiveUsd : ℚ) :
    RetryTrace Unit ℚ :=
  withRetries (fun _ => .ok (getTokenPriceUsd res hiveUsd)) 3 300

/-- C10: when the market-metrics query returns no row for the symbol
(no response body, empty row list) or a row without a `lastPrice`, the
lookup returns price `0` — as a value, on the first attempt, never as an
error. -/
theorem c10_unknown_token_price_zero (res : Option (List MarketRow)) (hiveUsd : ℚ)
    (h : res = none ∨ res = some [] ∨
      ∃ rest, res = some (MarketRow.mk none :: rest)) :
    getTokenPriceUsd res hiveUsd = 0 ∧
    (tokenGetTokenPriceUsd res hiveUsd).result = .ok 0 ∧
    (tokenGetTokenPriceUsd res hiveUsd).calls = 1 := by
  have hval : getTokenPriceUsd res hiveUsd = 0 := by
    rcases h with h | h | ⟨rest, h⟩ <;> subst h <;> rfl
  refine ⟨hval, ?_, ?_⟩
  · simp [tokenGetTokenPriceUsd, withRetries, withRetriesAux, hval]
  · simp [tokenGetTokenPriceUsd, withRetries, withRetriesAux]

/-- Witness for C10 at an empty row list and `hiveUsd = 7`. -/
theorem c10_witness : getTokenPriceUsd (some []) 7 = 0 :=
  (c10_unknown_token_price_zero (some []) 7 (Or.inr (Or.inl rfl))).1

end HiveEarnings
